import Mathlib

/-!
Verification of `src/ffindex_apply_mpi.c` (ffindex's `ffindex_apply_mpi` tool).

The development shallowly embeds the core of the program:

* the parent half of `ffindex_apply_by_entry` (the Entry Pipe Runner):
  the chunked write loop to the child's stdin with its opportunistic
  non-blocking drain of the child's stdout, the final blocking drain,
  the per-entry progress line and the return value;
* `ffindex_apply_worker_payload` (the Worker Loop over one chunk of entry
  indices) and the global `worker_splits` list it maintains via
  `SLIST_INSERT_HEAD`;
* `ffindex_worker_merge_splits` and `ffindex_merge_splits` (the two-level
  shard merge), as lists of file operations plus an entry-sequence view;
* the `gnu_getopt` option loop of `main` and the split-size computation.

Machine integers are modelled with `Nat`/`Int`; the C `ssize_t`-to-`size_t`
conversion in the write loop's condition is modelled explicitly modulo
`2 ^ 64`.  Oracles (functions given as parameters) stand for the operating
system's responses: how many bytes a `write` accepts or whether it fails
with `EPIPE`, how many bytes a non-blocking `read` returns, the child's
exit status from `waitpid`.  Loops are written with explicit fuel so that
every definition is executable; theorems discharge the fuel.
-/

/-- `PIPE_BUF` from `<limits.h>`, the atomic-pipe-write limit (4096 on Linux). -/
def PIPE_BUF : Nat := 4096

/-- The modulus of the C `size_t` type (the code runs with 64-bit `size_t`). -/
def U64 : Int := 2 ^ 64

/-- Conversion of a C `ssize_t` value to `size_t`, as performed implicitly by
the comparison `written < to_write` in the write loop (line 141). -/
def sizeT (x : Int) : Nat := (x % U64).toNat

/-- One ffindex index record (`ffindex_entry_t`): a name and the byte range
`[offset, offset+length)` in the source blob; `length` includes the trailing
sentinel byte, so the payload piped to the child is `length - 1` bytes. -/
structure ffindex_entry_t where
  name : String
  offset : Nat
  length : Nat
deriving DecidableEq

/-- Outcome of one `write(pipefd_stdin[1], …)` call, as seen by the parent:
`ok k` means the call returned `k ≥ 0` bytes written; `epipe` means it
returned `-1` with `errno == EPIPE` (child closed its stdin); `err` means it
returned `-1` with any other `errno`. -/
inductive WriteRes where
  | ok (k : Nat)
  | epipe
  | err
deriving DecidableEq

/-- State of the write loop of `ffindex_apply_by_entry` (lines 137-172).
`written` is the C `ssize_t written` variable; `delivered` counts the payload
bytes actually accepted by the pipe (the sum of the non-negative `write`
results); `calls` records the size argument of each `write` call in order;
`t` counts `write` calls, `u` counts non-blocking `read` calls; `drained` is
how far `b` advanced past `read_buffer` inside the loop; `broke` records that
the non-`EPIPE` error branch (line 152-157) executed `break`. -/
structure PipeLoopState where
  written : Int
  delivered : Nat
  calls : List Nat
  t : Nat
  nreads : Nat
  u : Nat
  drained : Nat
  broke : Bool
deriving DecidableEq

/-- The loop state at entry to the write loop. -/
def initLoopState : PipeLoopState :=
  { written := 0, delivered := 0, calls := [], t := 0, nreads := 0, u := 0,
    drained := 0, broke := false }

/-- The `batch_size` computation of lines 143-148: `rest = to_write - written`
(a `size_t` subtraction on a `ssize_t` value, hence the modulus), then
`batch_size = PIPE_BUF` capped down to `rest` when `rest < PIPE_BUF`. -/
def batchSize (toWrite : Nat) (written : Int) : Nat :=
  let rest := sizeT ((toWrite : Int) - written)
  if rest < PIPE_BUF then rest else PIPE_BUF

/-- The opportunistic non-blocking drain of lines 163-171: when capture is on,
one `read(pipefd_stdout[0], b, PIPE_BUF)` is attempted after the write; the
oracle `rOr` gives the number of bytes it returned at read number `u`
(`0` stands for "nothing available", i.e. `-1`/`EAGAIN`). -/
def afterRead (rOr : Nat → Nat) (capture : Bool) (s : PipeLoopState) : PipeLoopState :=
  if capture then
    { s with drained := s.drained + rOr s.u, nreads := s.nreads + 1, u := s.u + 1 }
  else s

/-- The write loop of `ffindex_apply_by_entry`, lines 141-172:

    while (written < to_write) {            -- ssize_t written compared as size_t
      …batch_size…                          -- batchSize above
      ssize_t w = write(…, batch_size);     -- oracle wOr, consulted per call
      if (w < 0 && errno != EPIPE) { … break; }
      else { written += w; }                -- note: on EPIPE this adds -1
      if (capture_stdout) { …non-blocking read… }
    }

`wOr t n` is the result of write call number `t` with size argument `n`.
The `fuel` argument bounds the number of iterations; `none` means the fuel
ran out with the loop still running (a model artifact, excluded by the
theorems). -/
def pipeLoop (wOr : Nat → Nat → WriteRes) (rOr : Nat → Nat) (capture : Bool)
    (toWrite : Nat) : Nat → PipeLoopState → Option PipeLoopState
  | 0, s => if sizeT s.written < toWrite then none else some s
  | fuel + 1, s =>
    if sizeT s.written < toWrite then
      let bs := batchSize toWrite s.written
      match wOr s.t bs with
      | .err => some { s with calls := s.calls ++ [bs], t := s.t + 1, broke := true }
      | .ok k =>
          pipeLoop wOr rOr capture toWrite fuel
            (afterRead rOr capture
              { s with calls := s.calls ++ [bs], t := s.t + 1,
                       written := s.written + (k : Int), delivered := s.delivered + k })
      | .epipe =>
          pipeLoop wOr rOr capture toWrite fuel
            (afterRead rOr capture
              { s with calls := s.calls ++ [bs], t := s.t + 1,
                       written := s.written - 1 })
    else some s

/-- Line 49: `int capture_stdout = (data_file_out != NULL);` — output capture
is decided by the data output file alone. -/
def capture_stdout {α : Type} (data_file_out : Option α) : Bool :=
  data_file_out.isSome

/-- Result of one `ffindex_apply_by_entry` invocation (parent side).
`ret` is the function's return value (`EXIT_SUCCESS = 0`, or the `errno` of a
failed `pipe`/`fork`); `st` is the final write-loop state; `inputClosed`
records the `close(pipefd_stdin[1])` of line 173; `blockingRestored` records
the `fcntl` of line 178 removing `O_NONBLOCK`; `captured` is `b - read_buffer`
after the final blocking drain; `inserted` is the `(name, size)` pair passed
to `ffindex_insert_memory` (line 186), when capture is on; `line` is the
progress record printed by lines 196-200, emitted only when `WIFEXITED`. -/
structure ApplyResult where
  ret : Nat
  st : PipeLoopState
  inputClosed : Bool
  blockingRestored : Bool
  captured : Nat
  inserted : Option (String × Nat)
  line : Option (String × Nat × Nat × Nat)
deriving DecidableEq

/-- The parent branch of `ffindex_apply_by_entry` (lines 117-209).

* `sysErr` models a failed `pipe()`/`fork()`: when non-zero the function
  returns that `errno` before any piping (lines 52-58, 63-69, 203-208).
* `capture` is computed from `data_file_out` exactly as line 49 does;
  `index_file_out` does not influence it.
* `childOut` is the total number of bytes the child ever writes to its
  stdout; the final blocking `read` loop of lines 178-183 reads until
  end-of-file, i.e. returns the `childOut - drained` bytes not already
  drained inside the write loop.
* `childStatus` is `some code` when `waitpid` reports `WIFEXITED` with exit
  code `code`, and `none` when the child was terminated by a signal; the
  progress line of lines 196-200 is printed only in the former case.
* the function returns `EXIT_SUCCESS` no matter what the child's exit
  status was. -/
def ffindex_apply_by_entry (entry : ffindex_entry_t)
    (data_file_out index_file_out : Option String) (sysErr : Nat)
    (wOr : Nat → Nat → WriteRes) (rOr : Nat → Nat)
    (childOut : Nat) (childStatus : Option Nat) (fuel : Nat) : Option ApplyResult :=
  if sysErr ≠ 0 then
    some { ret := sysErr, st := initLoopState, inputClosed := false,
           blockingRestored := false, captured := 0, inserted := none, line := none }
  else
    let capture := capture_stdout data_file_out
    match pipeLoop wOr rOr capture (entry.length - 1) fuel initLoopState with
    | none => none
    | some s =>
      let cap := if capture then s.drained + (childOut - s.drained) else 0
      some { ret := 0, st := s, inputClosed := true, blockingRestored := capture,
             captured := cap,
             inserted := if capture then some (entry.name, cap) else none,
             line := childStatus.map (fun c => (entry.name, entry.offset, entry.length, c)) }

/-- A write oracle under which every `write` accepts its whole argument
(the ordinary successful run). -/
def fullWriter : Nat → Nat → WriteRes := fun _ n => .ok n

/-- A write oracle for a child that closes its stdin after `m` writes: the
first `m` calls succeed in full, every later call fails with `EPIPE`.  Once a
pipe's read end is closed it stays closed, so all subsequent writes fail. -/
def epipeAfter (m : Nat) : Nat → Nat → WriteRes :=
  fun t n => if t < m then .ok n else .epipe

/-- A read oracle under which non-blocking reads never find data. -/
def zeroRead : Nat → Nat := fun _ => 0

/-- Identity of an output file, following the `snprintf` naming of the code:
`final b` is a requested output file `b` itself (`-d`/`-i` argument);
`worker b r` is the worker shard `b.r` (rank appended, lines 240-241,
271-272); `chunk b r s e` is the chunk shard `b.r.s.e` (rank and chunk
bounds appended, lines 237-239, 303, 318). -/
inductive FileId where
  | final (base : String)
  | worker (base : String) (rank : Nat)
  | chunk (base : String) (rank : Nat) (s e : Nat)
deriving DecidableEq

/-- The per-entry environment the operating system presents to one
`ffindex_apply_by_entry` call: `sysErr` (errno of a failed `pipe`/`fork`,
`0` for none), the write and read oracles, the child's total stdout size,
its `waitpid` status (`none` = killed by a signal), and the loop fuel. -/
structure EntryEnv where
  sysErr : Nat
  wOr : Nat → Nat → WriteRes
  rOr : Nat → Nat
  childOut : Nat
  status : Option Nat
  fuel : Nat

/-- Accumulated observable state of one chunk's entry loop
(lines 329-351): the progress lines printed so far, the
`ffindex_insert_memory` appends made so far, and `exit_status`. -/
structure WorkerState where
  lines : List (String × Nat × Nat × Nat)
  appends : List (String × Nat)
  exit_status : Nat
deriving DecidableEq

/-- The worker state at the top of `ffindex_apply_worker_payload`'s loop. -/
def initWorkerState : WorkerState := { lines := [], appends := [], exit_status := 0 }

/-- Outcome of the entry loop.  `crash` models the undefined behaviour of
line 336: on a failed fetch (`entry == NULL`) the error branch immediately
evaluates `perror(entry->name)`, dereferencing the null pointer.  `fuelOut`
is the model artifact of exhausted pipe-loop fuel. -/
inductive LoopOutcome where
  | crash
  | fuelOut
  | done (st : WorkerState)
deriving DecidableEq

/-- Turn an optional observation into the list of records it contributes. -/
def optList {α : Type} : Option α → List α
  | some a => [a]
  | none => []

/-- The entry loop of `ffindex_apply_worker_payload` (lines 331-351): for
`k` indices starting at `i`, fetch the entry (`ffindex_get_entry_by_index`,
modelled by the read-only `index` map), run `ffindex_apply_by_entry`, and
`break` with the error as `exit_status` if it returns non-zero.  A `none`
fetch runs the buggy error branch, which crashes (see `LoopOutcome.crash`). -/
def workerEntriesLoop (index : Nat → Option ffindex_entry_t)
    (data_file_out index_file_out : Option String) (env : Nat → EntryEnv) :
    Nat → Nat → WorkerState → LoopOutcome
  | _, 0, st => .done st
  | i, k + 1, st =>
    match index i with
    | none => .crash
    | some e =>
      match ffindex_apply_by_entry e data_file_out index_file_out (env i).sysErr
          (env i).wOr (env i).rOr (env i).childOut (env i).status (env i).fuel with
      | none => .fuelOut
      | some r =>
        if r.ret ≠ 0 then
          .done { st with exit_status := r.ret }
        else
          workerEntriesLoop index data_file_out index_file_out env (i + 1) k
            { st with lines := st.lines ++ optList r.line,
                      appends := st.appends ++ optList r.inserted }

/-- Outcome of one `ffindex_apply_worker_payload` call: the chunk shard files
it opened (lines 296-327), the final worker state, and the completion record
`(start, end, status)` it pushes onto the global `worker_splits` list
(lines 360-364). -/
inductive PayloadOutcome where
  | crash
  | fuelOut
  | done (files : List FileId) (st : WorkerState) (split : Nat × Nat × Nat)
deriving DecidableEq

/-- The chunk shard files `ffindex_apply_worker_payload` opens with
`fopen(…, "w+")`: `base.rank.start.stop` for the data base name iff `-d` was
given (lines 300-312) and for the index base name iff `-i` was given
(lines 314-327). -/
def chunkShardFiles (data_filename_out index_filename_out : Option String)
    (rank start stop : Nat) : List FileId :=
  (match data_filename_out with
   | some d => [FileId.chunk d rank start stop]
   | none => []) ++
  (match index_filename_out with
   | some s => [FileId.chunk s rank start stop]
   | none => [])

/-- `ffindex_apply_worker_payload` (lines 296-367) for the chunk
`[start, stop)` on worker `rank` (`MPQ_rank`): opens the chunk shard files,
runs the entry loop, and records the completion split.  `fopen` is assumed
to succeed. -/
def ffindex_apply_worker_payload (index : Nat → Option ffindex_entry_t)
    (env : Nat → EntryEnv) (data_filename_out index_filename_out : Option String)
    (rank start stop : Nat) : PayloadOutcome :=
  match workerEntriesLoop index data_filename_out index_filename_out env start
      (stop - start) initWorkerState with
  | .crash => .crash
  | .fuelOut => .fuelOut
  | .done st =>
    .done (chunkShardFiles data_filename_out index_filename_out rank start stop)
      st (start, stop, st.exit_status)

/-- Outcome of one worker's whole run: every chunk shard file opened, the
concatenation of all progress lines, and the final `worker_splits` list. -/
inductive RunOutcome where
  | crash
  | fuelOut
  | done (files : List FileId) (lines : List (String × Nat × Nat × Nat))
         (splits : List (Nat × Nat × Nat))
deriving DecidableEq

/-- One worker's sequence of `ffindex_apply_worker_payload` calls, on the
chunks the queue hands it in order.  Each completed chunk is prepended to the
`worker_splits` list (`SLIST_INSERT_HEAD`, line 364), so the list ends up in
reverse completion order. -/
def workerRun (index : Nat → Option ffindex_entry_t) (env : Nat → EntryEnv)
    (data_filename_out index_filename_out : Option String) (rank : Nat) :
    List (Nat × Nat) → List (Nat × Nat × Nat) → RunOutcome
  | [], splits => .done [] [] splits
  | c :: cs, splits =>
    match ffindex_apply_worker_payload index env data_filename_out
        index_filename_out rank c.1 c.2 with
    | .crash => .crash
    | .fuelOut => .fuelOut
    | .done fls st sp =>
      match workerRun index env data_filename_out index_filename_out rank cs
          (sp :: splits) with
      | .crash => .crash
      | .fuelOut => .fuelOut
      | .done fls2 lns2 splits2 => .done (fls ++ fls2) (st.lines ++ lns2) splits2

/-- A file operation performed by a merge step: running the external
`ffindex_build -as` command (spec §6 treats it as a black-box append of the
source shard pair into the destination pair), or `remove(3)` of a file. -/
inductive MergeOp where
  | runBuild (destData destIdx srcData srcIdx : FileId)
  | removeFile (f : FileId)
deriving DecidableEq

/-- `ffindex_worker_merge_splits` (lines 223-255): nothing happens unless
both output filenames are present (lines 225-229); otherwise, for each entry
of the `worker_splits` list in list order (`SLIST_FOREACH`), the external
merge appends the chunk shard `base.rank.start.end` into the worker shard
`base.rank`, and on success (`ok sp = true`, with `remove_temporary` set as
at the call site, line 477) removes the chunk shard index file then the
chunk shard data file (lines 244-253). -/
def ffindex_worker_merge_splits (data_filename index_filename : Option String)
    (rank : Nat) (splits : List (Nat × Nat × Nat))
    (ok : Nat × Nat × Nat → Bool) : List MergeOp :=
  match data_filename, index_filename with
  | some d, some i =>
    splits.flatMap (fun sp =>
      [MergeOp.runBuild (.worker d rank) (.worker i rank)
        (.chunk d rank sp.1 sp.2.1) (.chunk i rank sp.1 sp.2.1)] ++
      (if ok sp then
        [MergeOp.removeFile (.chunk i rank sp.1 sp.2.1),
         MergeOp.removeFile (.chunk d rank sp.1 sp.2.1)]
       else []))
  | _, _ => []

/-- `ffindex_merge_splits` (lines 257-284): nothing happens unless both
output filenames are present; otherwise for `i = 1` to `splits - 1`
(ascending rank order, `splits` is `MPQ_size = W + 1`), the external merge
appends worker shard `base.i` into the final archive `base`, and on success
removes the worker shard index file then the worker shard data file. -/
def ffindex_merge_splits (data_filename index_filename : Option String)
    (size : Nat) (ok : Nat → Bool) : List MergeOp :=
  match data_filename, index_filename with
  | some d, some i =>
    (List.range' 1 (size - 1)).flatMap (fun r =>
      [MergeOp.runBuild (.final d) (.final i) (.worker d r) (.worker i r)] ++
      (if ok r then
        [MergeOp.removeFile (.worker i r), MergeOp.removeFile (.worker d r)]
       else []))
  | _, _ => []

/-- The files removed by a list of merge operations. -/
def removedFiles (ops : List MergeOp) : List FileId :=
  ops.filterMap (fun op =>
    match op with
    | .removeFile f => some f
    | _ => none)

/-- Modelled from the spec: the entry sequence produced by the worker-level
merge.  `ffindex_build` is external to src/ (spec §6: a black-box append of
the source shard's entries after the destination's), so the worker shard's
entry sequence is the concatenation of the chunk shards' sequences in the
order `SLIST_FOREACH` visits the `worker_splits` list (lines 235-254). -/
def worker_merge_entrySeq (splits : List (Nat × Nat × Nat))
    (content : Nat × Nat × Nat → List String) : List String :=
  splits.foldl (fun acc sp => acc ++ content sp) []

/-- Modelled from the spec: the entry sequence of the final archive.  The
coordinator's loop (lines 268-283) appends worker shard `r` for `r = 1` to
`size - 1` in ascending rank order into the final archive. -/
def final_merge_entrySeq (wshard : Nat → List String) (size : Nat) : List String :=
  (List.range' 1 (size - 1)).foldl (fun acc r => acc ++ wshard r) []

/-- The entry sequence claimed by the spec (§8 "Merge order preservation"):
for rank 1 through W, that worker's chunks in ascending start order (the
order they were handed out), each chunk's entries in original index order. -/
def claimed_entrySeq (W : Nat) (chunksOf : Nat → List (Nat × Nat))
    (chunkContent : Nat × Nat → List String) : List String :=
  ((List.range' 1 W).map (fun r => ((chunksOf r).map chunkContent).flatten)).flatten

/-- Ceiling division, the spec's `ceil(n / d)` (§4.1). -/
def cdiv (a b : Nat) : Nat := (a + b - 1) / b

/-- Line 471: `int split_size = ((index->n_entries - 1) / ((MPQ_size - 1) * parts)) + 1;`
(the comment above it in the source says "ceil div"). -/
def split_size (n_entries MPQ_size parts : Nat) : Nat :=
  (n_entries - 1) / ((MPQ_size - 1) * parts) + 1

/-- Line 472: the chunk size actually passed to `MPQ_Main` is
`split_size > 1 ? split_size : 1`. -/
def dispatched_split_size (n_entries MPQ_size parts : Nat) : Nat :=
  if split_size n_entries MPQ_size parts > 1 then split_size n_entries MPQ_size parts else 1

/-- Modelled from the spec: `MPQ_Main` (the work-queue transport, in the
`mpq` library outside `src/`) hands out chunks of the fixed chunk size `c`,
in increasing order over `[0, n)`, until all `n` entry indices are
exhausted; the final chunk may be shorter (spec §4.1). -/
def mkChunks (n c : Nat) : List (Nat × Nat) :=
  (List.range (cdiv n c)).map (fun i => (i * c, min ((i + 1) * c) n))

/-- State of `main`'s option-parsing loop (lines 392-410):
`data_filename_out`, `index_filename_out` and the C `int parts`. -/
structure CliState where
  data_filename_out : Option String
  index_filename_out : Option String
  parts : Int
deriving DecidableEq

/-- Line 392-393: `int parts = 10;` and both output filenames `NULL`. -/
def initCliState : CliState :=
  { data_filename_out := none, index_filename_out := none, parts := 10 }

/-- The `gnu_getopt(argn, argv, "d:i:p::")` loop of lines 396-410, on the
argument shapes getopt distinguishes.  `d` and `i` take a required argument
(attached `-dVAL` or detached `-d VAL`).  `p` is declared with `p::`, an
OPTIONAL argument: only an attached `-pVAL` supplies `optarg`; after a lone
`-p`, `optarg` is `NULL`.  Line 407 is `parts = optarg;` — it stores the
`char *` pointer itself in the `int`: `ptrVal s` gives the (unspecified)
integer value of the pointer to an attached argument `s`, and a `NULL`
`optarg` stores `0`.  Parsing stops at the first non-option word. -/
def gnu_getopt_loop (ptrVal : String → Int) : List String → CliState → CliState
  | [], st => st
  | arg :: rest, st =>
    if arg = "-d" then
      match rest with
      | v :: rest2 =>
        gnu_getopt_loop ptrVal rest2 { st with data_filename_out := some v }
      | [] => st
    else if arg = "-i" then
      match rest with
      | v :: rest2 =>
        gnu_getopt_loop ptrVal rest2 { st with index_filename_out := some v }
      | [] => st
    else if arg = "-p" then
      gnu_getopt_loop ptrVal rest { st with parts := 0 }
    else if arg.data.take 2 = ['-', 'd'] then
      gnu_getopt_loop ptrVal rest
        { st with data_filename_out := some (String.mk (arg.data.drop 2)) }
    else if arg.data.take 2 = ['-', 'i'] then
      gnu_getopt_loop ptrVal rest
        { st with index_filename_out := some (String.mk (arg.data.drop 2)) }
    else if arg.data.take 2 = ['-', 'p'] then
      gnu_getopt_loop ptrVal rest { st with parts := ptrVal (String.mk (arg.data.drop 2)) }
    else st

/-- The CLI state after `main`'s option loop on the given command-line words
(the words after the program name). -/
def parseCli (ptrVal : String → Int) (args : List String) : CliState :=
  gnu_getopt_loop ptrVal args initCliState

def sumReads (rOr : Nat → Nat) (k : Nat) : Nat := ((List.range k).map rOr).sum

/-- Observations claimed for a successful Entry Pipe Runner invocation with
capture on (`-d` given): the whole payload delivered, chunked writes,
post-loop close/drain, and the captured byte count. -/
def pipeRunObs (e : ffindex_entry_t) (d : String) (iOpt : Option String)
    (rOr : Nat → Nat) (childOut : Nat) (cstat : Option Nat) (fuel : Nat) : Prop :=
  ∃ r, ffindex_apply_by_entry e (some d) iOpt 0 fullWriter rOr childOut cstat fuel = some r ∧
    r.st.delivered = e.length - 1 ∧
    r.st.calls.sum = e.length - 1 ∧
    (∀ x ∈ r.st.calls, x ≤ PIPE_BUF) ∧
    r.st.nreads = r.st.calls.length ∧
    r.inputClosed = true ∧
    r.blockingRestored = true ∧
    r.captured = childOut ∧
    r.inserted = some (e.name, childOut) ∧
    r.ret = 0

/-- Observations claimed for an Entry Pipe Runner invocation whose child
closes its stdin after `m` writes (later writes fail with `EPIPE`). -/
def epipeRunObs (e : ffindex_entry_t) (dOpt iOpt : Option String) (m : Nat)
    (rOr : Nat → Nat) (childOut : Nat) (cstat : Option Nat) (fuel : Nat) : Prop :=
  ∃ r, ffindex_apply_by_entry e dOpt iOpt 0 (epipeAfter m) rOr childOut cstat fuel = some r ∧
    r.st.broke = false ∧
    r.st.delivered = min (m * PIPE_BUF) (e.length - 1) ∧
    (e.length - 1 ≤ m * PIPE_BUF → r.st.calls.sum = e.length - 1) ∧
    r.ret = 0 ∧
    r.inputClosed = true ∧
    r.blockingRestored = capture_stdout dOpt

/-- The Partition Planner contract of spec §4.1/§8: the dispatched chunk
size is `max(1, ceil(n / (W * parts)))` and the chunks cover `[0, n)`
exactly, in increasing order, with full chunks except possibly the last. -/
def partitionOk (n W parts : Nat) : Prop :=
  dispatched_split_size n (W + 1) parts = max 1 (cdiv n (W * parts)) ∧
  ((mkChunks n (dispatched_split_size n (W + 1) parts)).flatMap
      (fun p => List.range' p.1 (p.2 - p.1)) = List.range n) ∧
  (∀ p ∈ (mkChunks n (dispatched_split_size n (W + 1) parts)).dropLast,
    p.2 - p.1 = dispatched_split_size n (W + 1) parts) ∧
  (∀ p ∈ mkChunks n (dispatched_split_size n (W + 1) parts),
    0 < p.2 - p.1 ∧ p.2 - p.1 ≤ dispatched_split_size n (W + 1) parts)

/-- Concrete two-entry fixtures for witnesses: entry `j` is named "a" for
`j = 0` and "b" otherwise. -/
def abName (j : Nat) : String := if j = 0 then "a" else "b"

/-- Offset of entry `j` in the fixture blob. -/
def abOff (j : Nat) : Nat := if j = 0 then 0 else 1

/-- Fixture entry `j`: name, offset, and stored length 1 (payload size 0). -/
def entAB (j : Nat) : ffindex_entry_t := ⟨abName j, abOff j, 1⟩

/-- A total fixture index whose every lookup succeeds. -/
def abIndex : Nat → Option ffindex_entry_t := fun j => some (entAB j)

/-- A benign per-entry environment: pipes and fork succeed, every write is
accepted in full, non-blocking reads find nothing, the child writes nothing
and exits 0. -/
def plainEnv : Nat → EntryEnv := fun _ =>
  { sysErr := 0, wOr := fullWriter, rOr := zeroRead, childOut := 0,
    status := some 0, fuel := 1 }

/-- Like `plainEnv`, except every child is terminated by a signal:
`waitpid` reports no `WIFEXITED` status. -/
def signalEnv : Nat → EntryEnv := fun _ =>
  { sysErr := 0, wOr := fullWriter, rOr := zeroRead, childOut := 0,
    status := none, fuel := 1 }

/-- Like `plainEnv`, except every child exits with status 3. -/
def failStatusEnv : Nat → EntryEnv := fun _ =>
  { sysErr := 0, wOr := fullWriter, rOr := zeroRead, childOut := 0,
    status := some 3, fuel := 1 }

/-- The `ApplyResult` produced for `entAB j` under `plainEnv` with capture
on (`-d` and `-i` given, payload size 0). -/
def plainCaptureResult (j : Nat) : ApplyResult :=
  { ret := 0, st := initLoopState, inputClosed := true, blockingRestored := true,
    captured := 0, inserted := some (abName j, 0),
    line := some (abName j, abOff j, 1, 0) }

/-- The `ApplyResult` produced for `entAB j` under `plainEnv` with capture
off (no `-d`). -/
def plainNoCaptureResult (j : Nat) : ApplyResult :=
  { ret := 0, st := initLoopState, inputClosed := true, blockingRestored := false,
    captured := 0, inserted := none,
    line := some (abName j, abOff j, 1, 0) }

/-- The `ApplyResult` produced for `entAB j` under `failStatusEnv` with
capture off: the child's exit status 3 is reported in the progress line. -/
def failStatusResult (j : Nat) : ApplyResult :=
  { ret := 0, st := initLoopState, inputClosed := true, blockingRestored := false,
    captured := 0, inserted := none,
    line := some (abName j, abOff j, 1, 3) }

-- sanity: the apply equations hold by rfl

/-- Entry names of a chunk shard over the fixture index: the names of the
chunk's entries in original index order. -/
def twoChunkNames : Nat × Nat × Nat → List String := fun sp =>
  (List.range' sp.1 (sp.2.1 - sp.1)).map abName

theorem PIPE_BUF_pos : 0 < PIPE_BUF := by decide

/-- A `ssize_t` value that is a small natural is unchanged by the `size_t` conversion. -/
theorem sizeT_coe (w : Nat) (h : w < 2 ^ 64) : sizeT (w : Int) = w := by
  unfold sizeT U64
  rw [Int.emod_eq_of_lt (by positivity) (by exact_mod_cast h)]
  simp

/-- The `ssize_t` value `-1` converts to `SIZE_MAX`; this is what makes the
loop condition `written < to_write` false once `written` reaches `-1`. -/
theorem sizeT_neg_one : sizeT (-1) = 2 ^ 64 - 1 := by decide

theorem batchSize_coe (toWrite w0 : Nat) (h0 : w0 ≤ toWrite) (h : toWrite < 2 ^ 64) :
    batchSize toWrite (w0 : Int) = min PIPE_BUF (toWrite - w0) := by
  unfold batchSize
  have h1 : (toWrite : Int) - (w0 : Int) = ((toWrite - w0 : Nat) : Int) := by
    push_cast [h0]; ring
  rw [h1, sizeT_coe _ (by omega)]
  simp only []
  by_cases h2 : toWrite - w0 < PIPE_BUF
  · rw [if_pos h2]; omega
  · rw [if_neg h2]; omega

theorem batchSize_le (toWrite : Nat) (w : Int) : batchSize toWrite w ≤ PIPE_BUF := by
  unfold batchSize
  simp only []
  split <;> omega

@[simp] theorem afterRead_written (rOr : Nat → Nat) (capture : Bool) (s : PipeLoopState) :
    (afterRead rOr capture s).written = s.written := by
  unfold afterRead; split <;> rfl

@[simp] theorem afterRead_delivered (rOr : Nat → Nat) (capture : Bool) (s : PipeLoopState) :
    (afterRead rOr capture s).delivered = s.delivered := by
  unfold afterRead; split <;> rfl

@[simp] theorem afterRead_calls (rOr : Nat → Nat) (capture : Bool) (s : PipeLoopState) :
    (afterRead rOr capture s).calls = s.calls := by
  unfold afterRead; split <;> rfl

@[simp] theorem afterRead_broke (rOr : Nat → Nat) (capture : Bool) (s : PipeLoopState) :
    (afterRead rOr capture s).broke = s.broke := by
  unfold afterRead; split <;> rfl

@[simp] theorem afterRead_t (rOr : Nat → Nat) (capture : Bool) (s : PipeLoopState) :
    (afterRead rOr capture s).t = s.t := by
  unfold afterRead; split <;> rfl

theorem pipeLoop_exit (wOr : Nat → Nat → WriteRes) (rOr : Nat → Nat) (capture : Bool)
    (toWrite : Nat) (fuel : Nat) (s : PipeLoopState)
    (h : ¬ sizeT s.written < toWrite) :
    pipeLoop wOr rOr capture toWrite fuel s = some s := by
  cases fuel <;> simp only [pipeLoop, if_neg h]

/-- Running the write loop when every `write` accepts its whole argument:
the loop terminates with exactly the remaining payload delivered, and the
write sizes sum to the payload size. -/
theorem pipeLoop_full (rOr : Nat → Nat) (capture : Bool) (toWrite : Nat)
    (hT : toWrite < 2 ^ 64) :
    ∀ (fuel : Nat) (s : PipeLoopState) (w0 : Nat), s.written = (w0 : Int) → w0 ≤ toWrite →
      toWrite - w0 ≤ fuel →
      ∃ sF, pipeLoop fullWriter rOr capture toWrite fuel s = some sF ∧
        sF.written = (toWrite : Int) ∧
        sF.delivered = s.delivered + (toWrite - w0) ∧
        sF.calls.sum = s.calls.sum + (toWrite - w0) ∧
        sF.broke = s.broke := by
  intro fuel
  induction fuel with
  | zero =>
    intro s w0 hw hle hfuel
    have hEq : w0 = toWrite := by omega
    have hc : ¬ sizeT s.written < toWrite := by
      rw [hw, sizeT_coe w0 (by omega)]; omega
    refine ⟨s, pipeLoop_exit _ _ _ _ _ _ hc, by rw [hw, hEq], by omega, by omega, rfl⟩
  | succ fuel ih =>
    intro s w0 hw hle hfuel
    by_cases hlt : w0 < toWrite
    · have hc : sizeT s.written < toWrite := by rw [hw, sizeT_coe w0 (by omega)]; exact hlt
      have hbs : batchSize toWrite s.written = min PIPE_BUF (toWrite - w0) := by
        rw [hw]; exact batchSize_coe toWrite w0 hle hT
      have hbs1 : 1 ≤ min PIPE_BUF (toWrite - w0) := by
        have := PIPE_BUF_pos; omega
      set s1 := afterRead rOr capture
        { s with calls := s.calls ++ [batchSize toWrite s.written], t := s.t + 1,
                 written := s.written + (batchSize toWrite s.written : Int),
                 delivered := s.delivered + batchSize toWrite s.written } with hs1
      have hstep : pipeLoop fullWriter rOr capture toWrite (fuel + 1) s =
          pipeLoop fullWriter rOr capture toWrite fuel s1 := by
        simp only [pipeLoop, if_pos hc, fullWriter]
      have hw1 : s1.written = ((w0 + min PIPE_BUF (toWrite - w0) : Nat) : Int) := by
        rw [hs1, afterRead_written]
        show s.written + (batchSize toWrite s.written : Int) = _
        rw [hbs, hw]; push_cast; ring
      have hd1 : s1.delivered = s.delivered + min PIPE_BUF (toWrite - w0) := by
        rw [hs1, afterRead_delivered]
        show s.delivered + batchSize toWrite s.written = _
        rw [hbs]
      have hc1 : s1.calls = s.calls ++ [min PIPE_BUF (toWrite - w0)] := by
        rw [hs1, afterRead_calls]
        show s.calls ++ [batchSize toWrite s.written] = _
        rw [hbs]
      have hb1 : s1.broke = s.broke := by
        rw [hs1, afterRead_broke]
      obtain ⟨sF, hrun, hwF, hdF, hcF, hbF⟩ :=
        ih s1 (w0 + min PIPE_BUF (toWrite - w0)) hw1 (by omega) (by omega)
      refine ⟨sF, by rw [hstep]; exact hrun, hwF, ?_, ?_, ?_⟩
      · rw [hdF, hd1]; omega
      · rw [hcF, hc1, List.sum_append]; simp; omega
      · rw [hbF, hb1]
    · have hEq : w0 = toWrite := by omega
      have hc : ¬ sizeT s.written < toWrite := by
        rw [hw, sizeT_coe w0 (by omega)]; omega
      refine ⟨s, pipeLoop_exit _ _ _ _ _ _ hc, by rw [hw, hEq], by omega, by omega, rfl⟩

/-- Total number of bytes returned by the first `k` non-blocking reads. -/

theorem sumReads_succ (rOr : Nat → Nat) (k : Nat) :
    sumReads rOr (k + 1) = sumReads rOr k + rOr k := by
  simp [sumReads, List.range_succ]

/-- Oracle-independent invariants of the write loop: the drained byte count
is the sum of the non-blocking reads so far; with capture on, one
non-blocking read is attempted after each write call; and every write call
passes at most `PIPE_BUF` bytes. -/
theorem pipeLoop_frame (wOr : Nat → Nat → WriteRes) (rOr : Nat → Nat) (capture : Bool)
    (toWrite : Nat) :
    ∀ (fuel : Nat) (s sF : PipeLoopState),
      pipeLoop wOr rOr capture toWrite fuel s = some sF →
      (s.drained = sumReads rOr s.u → sF.drained = sumReads rOr sF.u) ∧
      (capture = true → s.nreads = s.calls.length → s.u = s.nreads → sF.broke = false →
        sF.nreads = sF.calls.length ∧ sF.u = sF.nreads) ∧
      (∀ x ∈ sF.calls, x ∈ s.calls ∨ x ≤ PIPE_BUF) := by
  intro fuel
  induction fuel with
  | zero =>
    intro s sF h
    simp only [pipeLoop] at h
    split at h
    · exact absurd h (by simp)
    · cases h
      exact ⟨fun h => h, fun _ h2 h3 _ => ⟨h2, h3⟩, fun x hx => .inl hx⟩
  | succ fuel ih =>
    intro s sF h
    simp only [pipeLoop] at h
    split at h
    case isFalse =>
      cases h
      exact ⟨fun h => h, fun _ h2 h3 _ => ⟨h2, h3⟩, fun x hx => .inl hx⟩
    case isTrue hc =>
      set bs := batchSize toWrite s.written with hbs
      have hbsle : bs ≤ PIPE_BUF := batchSize_le toWrite s.written
      cases hor : wOr s.t bs with
      | err =>
        rw [hor] at h
        cases h
        refine ⟨fun h => h, fun _ _ _ hbr => by simp at hbr, fun x hx => ?_⟩
        simp only [List.mem_append, List.mem_singleton] at hx
        rcases hx with hx | hx
        · exact .inl hx
        · exact .inr (hx ▸ hbsle)
      | ok k =>
        rw [hor] at h
        set s1 := afterRead rOr capture
          { s with calls := s.calls ++ [bs], t := s.t + 1,
                   written := s.written + (k : Int), delivered := s.delivered + k } with hs1
        obtain ⟨ih1, ih2, ih3⟩ := ih s1 sF h
        refine ⟨?_, ?_, ?_⟩
        · intro hdr
          apply ih1
          rw [hs1]
          unfold afterRead
          split
          · show _ + rOr _ = sumReads rOr (_ + 1)
            rw [sumReads_succ, hdr]
          · exact hdr
        · intro hcap h2 h3 hbr
          apply ih2 hcap ?_ ?_ hbr
          · rw [hs1]
            unfold afterRead
            rw [if_pos hcap]
            show _ + 1 = (s.calls ++ [bs]).length
            simp [h2]
          · rw [hs1]
            unfold afterRead
            rw [if_pos hcap]
            show s.u + 1 = _ + 1
            simp [h3]
        · intro x hx
          rcases ih3 x hx with hx1 | hx1
          · rw [hs1, afterRead_calls] at hx1
            simp only [List.mem_append, List.mem_singleton] at hx1
            rcases hx1 with hx1 | hx1
            · exact .inl hx1
            · exact .inr (hx1 ▸ hbsle)
          · exact .inr hx1
      | epipe =>
        rw [hor] at h
        set s1 := afterRead rOr capture
          { s with calls := s.calls ++ [bs], t := s.t + 1,
                   written := s.written - 1 } with hs1
        obtain ⟨ih1, ih2, ih3⟩ := ih s1 sF h
        refine ⟨?_, ?_, ?_⟩
        · intro hdr
          apply ih1
          rw [hs1]
          unfold afterRead
          split
          · show _ + rOr _ = sumReads rOr (_ + 1)
            rw [sumReads_succ, hdr]
          · exact hdr
        · intro hcap h2 h3 hbr
          apply ih2 hcap ?_ ?_ hbr
          · rw [hs1]
            unfold afterRead
            rw [if_pos hcap]
            show _ + 1 = (s.calls ++ [bs]).length
            simp [h2]
          · rw [hs1]
            unfold afterRead
            rw [if_pos hcap]
            show s.u + 1 = _ + 1
            simp [h3]
        · intro x hx
          rcases ih3 x hx with hx1 | hx1
          · rw [hs1, afterRead_calls] at hx1
            simp only [List.mem_append, List.mem_singleton] at hx1
            rcases hx1 with hx1 | hx1
            · exact .inl hx1
            · exact .inr (hx1 ▸ hbsle)
          · exact .inr hx1

/-- Running the write loop against a child that closes its stdin after `m`
full writes: the loop terminates without taking the fatal error branch,
delivering exactly `min (m * PIPE_BUF) toWrite` payload bytes.  (After the
first `EPIPE`, `written += (-1)` makes `written` retreat; the loop performs
further failing write calls until `written` reaches `-1`, whose `size_t`
conversion is `SIZE_MAX`, ending the loop.) -/
theorem pipeLoop_epipe (m : Nat) (rOr : Nat → Nat) (capture : Bool) (toWrite : Nat)
    (hT : toWrite < 2 ^ 64) :
    ∀ (fuel : Nat) (s : PipeLoopState),
      ((s.broke = false ∧ s.t ≤ m ∧
        s.written = ((min (s.t * PIPE_BUF) toWrite : Nat) : Int) ∧
        s.delivered = min (s.t * PIPE_BUF) toWrite ∧
        s.calls.sum = s.delivered) ∨
       (s.broke = false ∧ m ≤ s.t ∧
        s.delivered = min (m * PIPE_BUF) toWrite ∧
        min (m * PIPE_BUF) toWrite < toWrite ∧
        s.written = ((min (m * PIPE_BUF) toWrite : Nat) : Int) - ((s.t - m : Nat) : Int) ∧
        s.t - m ≤ min (m * PIPE_BUF) toWrite + 1)) →
      m + min (m * PIPE_BUF) toWrite + 1 - s.t ≤ fuel →
      ∃ sF, pipeLoop (epipeAfter m) rOr capture toWrite fuel s = some sF ∧
        sF.delivered = min (m * PIPE_BUF) toWrite ∧
        sF.broke = false ∧
        (toWrite ≤ m * PIPE_BUF → sF.calls.sum = toWrite) := by
  intro fuel
  induction fuel with
  | zero =>
    intro s hinv hfuel
    rcases hinv with ⟨hbr, htm, hwr, hdl, _⟩ | ⟨hbr, htm, hdl, hMlt, hwr, htb⟩
    · omega
    · have htEq : s.t - m = min (m * PIPE_BUF) toWrite + 1 := by omega
      have hw1 : s.written = -1 := by rw [hwr, htEq]; push_cast; ring
      have hc : ¬ sizeT s.written < toWrite := by
        rw [hw1, sizeT_neg_one]; omega
      exact ⟨s, pipeLoop_exit _ _ _ _ _ _ hc, hdl, hbr, by omega⟩
  | succ fuel ih =>
    intro s hinv hfuel
    by_cases hcond : sizeT s.written < toWrite
    · by_cases htm : s.t < m
      · -- still in the all-writes-succeed phase
        rcases hinv with ⟨hbr, _, hwr, hdl, hcs⟩ | ⟨_, htm2, _, _, _, _⟩
        · have hminle : min (s.t * PIPE_BUF) toWrite ≤ toWrite := by omega
          have hsz : sizeT s.written = min (s.t * PIPE_BUF) toWrite := by
            rw [hwr]; exact sizeT_coe _ (by omega)
          have hvlt : s.t * PIPE_BUF < toWrite := by
            rw [hsz] at hcond; omega
          have hveq : min (s.t * PIPE_BUF) toWrite = s.t * PIPE_BUF := by omega
          have hbs : batchSize toWrite s.written =
              min PIPE_BUF (toWrite - s.t * PIPE_BUF) := by
            rw [hwr, hveq]
            exact batchSize_coe toWrite _ (by omega) hT
          set s1 := afterRead rOr capture
            { s with calls := s.calls ++ [batchSize toWrite s.written], t := s.t + 1,
                     written := s.written + (batchSize toWrite s.written : Int),
                     delivered := s.delivered + batchSize toWrite s.written } with hs1
          have hstep : pipeLoop (epipeAfter m) rOr capture toWrite (fuel + 1) s =
              pipeLoop (epipeAfter m) rOr capture toWrite fuel s1 := by
            simp only [pipeLoop, if_pos hcond, epipeAfter, if_pos htm]
          have hmul : (s.t + 1) * PIPE_BUF = s.t * PIPE_BUF + PIPE_BUF := Nat.succ_mul _ _
          have ht1 : s1.t = s.t + 1 := by rw [hs1, afterRead_t]
          have hw1 : s1.written = ((min (s1.t * PIPE_BUF) toWrite : Nat) : Int) := by
            rw [hs1, afterRead_written]
            show s.written + (batchSize toWrite s.written : Int) = _
            rw [hbs, hwr, hveq, afterRead_t]
            show _ = ((min ((s.t + 1) * PIPE_BUF) toWrite : Nat) : Int)
            rw [hmul]
            push_cast
            omega
          have hd1 : s1.delivered = min (s1.t * PIPE_BUF) toWrite := by
            rw [hs1, afterRead_delivered, afterRead_t]
            show s.delivered + batchSize toWrite s.written = _
            rw [hbs, hdl, hveq]
            show _ = min ((s.t + 1) * PIPE_BUF) toWrite
            rw [hmul]; omega
          have hc1 : s1.calls.sum = s1.delivered := by
            rw [hs1, afterRead_calls, afterRead_delivered]
            show (s.calls ++ [batchSize toWrite s.written]).sum = _
            rw [List.sum_append]
            simp [hcs]
          have hb1 : s1.broke = false := by rw [hs1, afterRead_broke]; exact hbr
          obtain ⟨sF, hrun, hres⟩ :=
            ih s1 (.inl ⟨hb1, by omega, hw1, hd1, hc1⟩) (by rw [ht1]; omega)
          exact ⟨sF, by rw [hstep]; exact hrun, hres⟩
        · omega
      · -- an EPIPE step: the child has closed its stdin
        have hM : min (m * PIPE_BUF) toWrite < toWrite ∧
            s.delivered = min (m * PIPE_BUF) toWrite ∧ s.broke = false ∧
            s.written = ((min (m * PIPE_BUF) toWrite : Nat) : Int) -
              ((s.t - m : Nat) : Int) ∧ s.t - m ≤ min (m * PIPE_BUF) toWrite := by
          rcases hinv with ⟨hbr, htm2, hwr, hdl, _⟩ | ⟨hbr, htm2, hdl, hMlt, hwr, htb⟩
          · have hteq : s.t = m := by omega
            have hsz : sizeT s.written = min (s.t * PIPE_BUF) toWrite := by
              rw [hwr]; exact sizeT_coe _ (by omega)
            refine ⟨by rw [← hteq]; rw [hsz] at hcond; omega,
                    by rw [hdl, hteq], hbr, ?_, by omega⟩
            rw [hwr, hteq]
            simp
          · -- already past the first EPIPE
            have hwge : s.t - m ≤ min (m * PIPE_BUF) toWrite := by
              by_contra hgt
              have hteq : s.t - m = min (m * PIPE_BUF) toWrite + 1 := by omega
              have hw1 : s.written = -1 := by rw [hwr, hteq]; push_cast; ring
              rw [hw1, sizeT_neg_one] at hcond
              omega
            exact ⟨hMlt, hdl, hbr, hwr, hwge⟩
        obtain ⟨hMlt, hdl, hbr, hwr, hwge⟩ := hM
        set s1 := afterRead rOr capture
          { s with calls := s.calls ++ [batchSize toWrite s.written], t := s.t + 1,
                   written := s.written - 1 } with hs1
        have hstep : pipeLoop (epipeAfter m) rOr capture toWrite (fuel + 1) s =
            pipeLoop (epipeAfter m) rOr capture toWrite fuel s1 := by
          simp only [pipeLoop, if_pos hcond, epipeAfter, if_neg htm]
        have ht1 : s1.t = s.t + 1 := by rw [hs1, afterRead_t]
        have hw1 : s1.written = ((min (m * PIPE_BUF) toWrite : Nat) : Int) -
            ((s1.t - m : Nat) : Int) := by
          rw [hs1, afterRead_written, afterRead_t]
          show s.written - 1 = _
          rw [hwr]
          push_cast
          omega
        have hd1 : s1.delivered = min (m * PIPE_BUF) toWrite := by
          rw [hs1, afterRead_delivered]; exact hdl
        have hb1 : s1.broke = false := by rw [hs1, afterRead_broke]; exact hbr
        obtain ⟨sF, hrun, hres⟩ :=
          ih s1 (.inr ⟨hb1, by omega, hd1, hMlt, hw1, by rw [ht1]; omega⟩)
            (by rw [ht1]; omega)
        exact ⟨sF, by rw [hstep]; exact hrun, hres⟩
    · -- the loop condition is already false
      rcases hinv with ⟨hbr, htm, hwr, hdl, hcs⟩ | ⟨hbr, htm, hdl, hMlt, hwr, htb⟩
      · have hsz : sizeT s.written = min (s.t * PIPE_BUF) toWrite := by
          rw [hwr]; exact sizeT_coe _ (by omega)
        have hEq : min (s.t * PIPE_BUF) toWrite = toWrite := by
          rw [hsz] at hcond; omega
        have hmle : s.t * PIPE_BUF ≤ m * PIPE_BUF := Nat.mul_le_mul_right _ htm
        have hMEq : min (m * PIPE_BUF) toWrite = toWrite := by omega
        refine ⟨s, pipeLoop_exit _ _ _ _ _ _ hcond, by omega, hbr, fun _ => by omega⟩
      · refine ⟨s, pipeLoop_exit _ _ _ _ _ _ hcond, hdl, hbr, fun hle => by omega⟩

/-- Fields of a completed `ffindex_apply_by_entry` call: it returns
`EXIT_SUCCESS`, prints the progress line exactly when the child exited
normally, and captures nothing when no data output file is present. -/
theorem apply_fields (e : ffindex_entry_t) (dOpt iOpt : Option String)
    (wOr : Nat → Nat → WriteRes) (rOr : Nat → Nat) (childOut : Nat)
    (cstat : Option Nat) (fuel : Nat) (r : ApplyResult)
    (h : ffindex_apply_by_entry e dOpt iOpt 0 wOr rOr childOut cstat fuel = some r) :
    r.ret = 0 ∧
    r.line = cstat.map (fun c => (e.name, e.offset, e.length, c)) ∧
    r.inserted = (if capture_stdout dOpt then
      some (e.name, r.captured) else none) ∧
    (capture_stdout dOpt = false → r.inserted = none ∧ r.captured = 0) := by
  unfold ffindex_apply_by_entry at h
  rw [if_neg (by simp)] at h
  simp only [] at h
  cases hm : pipeLoop wOr rOr (capture_stdout dOpt) (e.length - 1) fuel initLoopState with
  | none => rw [hm] at h; cases h
  | some s =>
    rw [hm] at h
    cases h
    refine ⟨rfl, rfl, ?_, ?_⟩
    · by_cases hc : capture_stdout dOpt <;> simp [hc]
    · intro hc
      simp [hc]

/-- The entry loop processes all of its `k` indices when every fetch
succeeds and every per-entry invocation returns `EXIT_SUCCESS`, collecting
lines and appends in index order. -/
theorem workerEntriesLoop_all (index : Nat → Option ffindex_entry_t)
    (dOpt iOpt : Option String) (env : Nat → EntryEnv)
    (ent : Nat → ffindex_entry_t) (rOf : Nat → ApplyResult) :
    ∀ (k i : Nat) (st : WorkerState),
      (∀ j, i ≤ j → j < i + k →
        index j = some (ent j) ∧
        ffindex_apply_by_entry (ent j) dOpt iOpt (env j).sysErr (env j).wOr (env j).rOr
          (env j).childOut (env j).status (env j).fuel = some (rOf j) ∧
        (rOf j).ret = 0) →
      workerEntriesLoop index dOpt iOpt env i k st =
        .done { lines := st.lines ++ (List.range' i k).flatMap (fun j => optList (rOf j).line),
                appends := st.appends ++
                  (List.range' i k).flatMap (fun j => optList (rOf j).inserted),
                exit_status := st.exit_status } := by
  intro k
  induction k with
  | zero =>
    intro i st h
    simp [workerEntriesLoop]
  | succ k ih =>
    intro i st h
    obtain ⟨hidx, happ, hret⟩ := h i (le_refl i) (by omega)
    have hcond : ¬ ((rOf i).ret ≠ 0) := by rw [hret]; simp
    simp only [workerEntriesLoop, hidx, happ, if_neg hcond]
    rw [ih (i + 1) _ (fun j hj1 hj2 => h j (by omega) (by omega))]
    simp [List.range'_succ, List.append_assoc]

theorem payload_all (index : Nat → Option ffindex_entry_t) (env : Nat → EntryEnv)
    (dOpt iOpt : Option String) (rank : Nat)
    (ent : Nat → ffindex_entry_t) (rOf : Nat → ApplyResult) (start stop : Nat)
    (hss : start ≤ stop)
    (h : ∀ j, start ≤ j → j < stop →
      index j = some (ent j) ∧
      ffindex_apply_by_entry (ent j) dOpt iOpt (env j).sysErr (env j).wOr (env j).rOr
        (env j).childOut (env j).status (env j).fuel = some (rOf j) ∧
      (rOf j).ret = 0) :
    ffindex_apply_worker_payload index env dOpt iOpt rank start stop =
      .done (chunkShardFiles dOpt iOpt rank start stop)
        { lines := (List.range' start (stop - start)).flatMap (fun j => optList (rOf j).line),
          appends := (List.range' start (stop - start)).flatMap
            (fun j => optList (rOf j).inserted),
          exit_status := 0 }
        (start, stop, 0) := by
  unfold ffindex_apply_worker_payload
  rw [workerEntriesLoop_all index dOpt iOpt env ent rOf (stop - start) start initWorkerState
    (fun j hj1 hj2 => h j hj1 (by omega))]
  simp [initWorkerState]

/-- A worker's full run over its chunks, when every entry processes cleanly:
the chunk shard files, the progress lines in index order, and the
`worker_splits` list in reverse completion order (head insertion). -/
theorem workerRun_all (index : Nat → Option ffindex_entry_t) (env : Nat → EntryEnv)
    (dOpt iOpt : Option String) (rank : Nat)
    (ent : Nat → ffindex_entry_t) (rOf : Nat → ApplyResult)
    (hgood : ∀ j, index j = some (ent j) ∧
      ffindex_apply_by_entry (ent j) dOpt iOpt (env j).sysErr (env j).wOr (env j).rOr
        (env j).childOut (env j).status (env j).fuel = some (rOf j) ∧
      (rOf j).ret = 0) :
    ∀ (cs : List (Nat × Nat)) (splits : List (Nat × Nat × Nat)),
      (∀ c ∈ cs, c.1 ≤ c.2) →
      workerRun index env dOpt iOpt rank cs splits =
        .done (cs.flatMap (fun c => chunkShardFiles dOpt iOpt rank c.1 c.2))
          (cs.flatMap (fun c =>
            (List.range' c.1 (c.2 - c.1)).flatMap (fun j => optList (rOf j).line)))
          ((cs.map (fun c => ((c.1, c.2, 0) : Nat × Nat × Nat))).reverse ++ splits) := by
  intro cs
  induction cs with
  | nil => intro splits hcs; simp [workerRun]
  | cons c cs ih =>
    intro splits hcs
    simp only [workerRun]
    rw [payload_all index env dOpt iOpt rank ent rOf c.1 c.2
      (hcs c (by simp)) (fun j hj1 hj2 => hgood j)]
    dsimp only
    rw [ih ((c.1, c.2, 0) :: splits) (fun x hx => hcs x (by simp [hx]))]
    simp [List.append_assoc]

theorem foldl_append_flatten {α β : Type} (f : α → List β) (l : List α) :
    ∀ acc : List β, l.foldl (fun acc a => acc ++ f a) acc = acc ++ (l.map f).flatten := by
  induction l with
  | nil => intro acc; simp
  | cons a l ih => intro acc; simp [ih, List.append_assoc]

theorem flatMap_nil_of {α β : Type} {l : List α} {f : α → List β}
    (h : ∀ x ∈ l, f x = []) : l.flatMap f = [] := by
  induction l with
  | nil => rfl
  | cons a l ih =>
    rw [List.flatMap_cons, h a (by simp), ih (fun x hx => h x (by simp [hx]))]
    rfl

theorem removedFiles_append (l1 l2 : List MergeOp) :
    removedFiles (l1 ++ l2) = removedFiles l1 ++ removedFiles l2 :=
  List.filterMap_append l1 l2 _

theorem cdiv_le_mul (n c : Nat) (hn : 1 ≤ n) (hc : 1 ≤ c) :
    n ≤ cdiv n c * c ∧ (cdiv n c - 1) * c < n ∧ 1 ≤ cdiv n c := by
  have hmod := Nat.div_add_mod (n + c - 1) c
  have hlt : (n + c - 1) % c < c := Nat.mod_lt _ (by omega)
  unfold cdiv
  set q := (n + c - 1) / c with hq
  have hcomm : c * q = q * c := Nat.mul_comm c q
  rcases Nat.eq_zero_or_pos q with h0 | h1
  · rw [h0] at hmod
    simp at hmod
    omega
  · have hsub : (q - 1) * c = q * c - c := by
      rw [Nat.sub_mul, Nat.one_mul]
    omega

theorem mkChunks_cover_aux (n c : Nat) (hc : 1 ≤ c) :
    ∀ j, ((List.range j).map
        (fun i => (((i * c, min ((i + 1) * c) n)) : Nat × Nat))).flatMap
        (fun p => List.range' p.1 (p.2 - p.1)) = List.range' 0 (min (j * c) n) := by
  intro j
  induction j with
  | zero => simp
  | succ j ih =>
    rw [List.range_succ, List.map_append, List.flatMap_append, ih]
    simp only [List.map_cons, List.map_nil, List.flatMap_cons, List.flatMap_nil,
      List.append_nil]
    have hmul : (j + 1) * c = j * c + c := Nat.succ_mul _ _
    by_cases hle : j * c ≤ n
    · have h1 : min (j * c) n = j * c := by omega
      rw [h1]
      have h2 := List.range'_append_1 0 (j * c) (min ((j + 1) * c) n - j * c)
      rw [Nat.zero_add] at h2
      rw [h2]
      congr 1
      omega
    · have h1 : min (j * c) n = n := by omega
      have h2 : min ((j + 1) * c) n = n := by omega
      rw [h1, h2]
      have h3 : n - j * c = 0 := by omega
      rw [h3]
      simp

theorem mkChunks_dropLast (n c : Nat) :
    (mkChunks n c).dropLast =
      (List.range (cdiv n c - 1)).map (fun i => (i * c, min ((i + 1) * c) n)) := by
  unfold mkChunks
  cases h : cdiv n c with
  | zero => simp
  | succ m =>
    rw [List.range_succ, List.map_append]
    simp [List.dropLast_concat]

/-- The chunks of `mkChunks n c` cover `[0, n)` exactly and in order, every
chunk but possibly the last has size `c`, and every chunk is non-empty of
size at most `c`. -/
theorem mkChunks_props (n c : Nat) (hn : 1 ≤ n) (hc : 1 ≤ c) :
    ((mkChunks n c).flatMap (fun p => List.range' p.1 (p.2 - p.1)) = List.range n) ∧
    (∀ p ∈ (mkChunks n c).dropLast, p.2 - p.1 = c) ∧
    (∀ p ∈ mkChunks n c, 0 < p.2 - p.1 ∧ p.2 - p.1 ≤ c) := by
  obtain ⟨hcov1, hcov2, hcov3⟩ := cdiv_le_mul n c hn hc
  refine ⟨?_, ?_, ?_⟩
  · unfold mkChunks
    rw [mkChunks_cover_aux n c hc (cdiv n c)]
    have hmin : min (cdiv n c * c) n = n := by omega
    rw [hmin, List.range_eq_range']
  · rw [mkChunks_dropLast]
    intro p hp2
    simp only [List.mem_map, List.mem_range] at hp2
    obtain ⟨i, hi, hpe⟩ := hp2
    have hile : (i + 1) * c ≤ (cdiv n c - 1) * c := Nat.mul_le_mul_right _ (by omega)
    have hmul : (i + 1) * c = i * c + c := Nat.succ_mul _ _
    subst hpe
    show min ((i + 1) * c) n - i * c = c
    omega
  · intro p hp2
    unfold mkChunks at hp2
    simp only [List.mem_map, List.mem_range] at hp2
    obtain ⟨i, hi, hpe⟩ := hp2
    have hile : i * c ≤ (cdiv n c - 1) * c := Nat.mul_le_mul_right _ (by omega)
    have hmul : (i + 1) * c = i * c + c := Nat.succ_mul _ _
    subst hpe
    show 0 < min ((i + 1) * c) n - i * c ∧ min ((i + 1) * c) n - i * c ≤ c
    omega

/-- Line 471-472 compute `max(1, ceil(n_entries / (W * parts)))` where
`W = MPQ_size - 1`. -/
theorem split_size_eq (n W parts : Nat) (hn : 1 ≤ n) (hW : 1 ≤ W) (hp : 1 ≤ parts) :
    dispatched_split_size n (W + 1) parts = max 1 (cdiv n (W * parts)) := by
  unfold dispatched_split_size split_size cdiv
  have hd : 1 ≤ W * parts := Nat.one_le_iff_ne_zero.mpr (by
    intro h
    rcases Nat.mul_eq_zero.mp h with h | h <;> omega)
  have hWp : W + 1 - 1 = W := by omega
  rw [hWp]
  have hstep : (n - 1) / (W * parts) + 1 = (n + W * parts - 1) / (W * parts) := by
    have h1 : n + W * parts - 1 = (n - 1) + W * parts := by omega
    rw [h1, Nat.add_div_right _ (by omega)]
  rw [hstep]
  have hpos : 1 ≤ (n + W * parts - 1) / (W * parts) :=
    (Nat.one_le_div_iff (by omega)).mpr (by omega)
  split <;> omega

/-- Claim C1: for every `n ≥ 1`, `W ≥ 1` and `parts ≥ 1`, the chunk size of
lines 470-472 equals `max(1, ceil(n / (W * parts)))`, and the chunks handed
out (fixed-size ranges in increasing order over `[0, n)`) are pairwise
disjoint, cover `[0, n)` exactly (their concatenation is `range n`), and all
have the computed size except possibly the last, which is positive and at
most the chunk size. -/
theorem partition_plan_ok (n W parts : Nat) (hn : 1 ≤ n) (hW : 1 ≤ W) (hp : 1 ≤ parts) :
    partitionOk n W parts := by
  have hc1 : 1 ≤ dispatched_split_size n (W + 1) parts := by
    unfold dispatched_split_size
    split <;> omega
  obtain ⟨h1, h2, h3⟩ := mkChunks_props n (dispatched_split_size n (W + 1) parts) hn hc1
  exact ⟨split_size_eq n W parts hn hW hp, h1, h2, h3⟩

/-- Witness for C1, the spec §8 scenario: `n = 25`, `W = 2`, `parts = 5`. -/
theorem partition_plan_ok_w : partitionOk 25 2 5 :=
  partition_plan_ok 25 2 5 (by decide) (by decide) (by decide)

/-- Claim C2: for an entry of stored length `≥ 1`, exactly `length - 1`
payload bytes are written to the child's stdin, in write calls of at most
`PIPE_BUF` bytes each; with capture enabled a non-blocking read is attempted
after each write chunk; after the payload the input pipe is closed, the
output pipe is switched back to blocking, and it is drained to end-of-file,
so the captured byte count equals everything the child wrote to stdout
(given that the reads never return more than the child wrote). -/
theorem entry_pipe_runner_ok (e : ffindex_entry_t) (d : String) (iOpt : Option String)
    (rOr : Nat → Nat) (childOut : Nat) (cstat : Option Nat) (fuel : Nat)
    (hlen : 1 ≤ e.length) (hsz : e.length - 1 < 2 ^ 64) (hfuel : e.length - 1 ≤ fuel)
    (hr : ∀ k, sumReads rOr k ≤ childOut) :
    pipeRunObs e d iOpt rOr childOut cstat fuel := by
  obtain ⟨sF, hrun, hwF, hdF, hcF, hbF⟩ :=
    pipeLoop_full rOr true (e.length - 1) hsz fuel initLoopState 0 rfl (by omega) (by omega)
  obtain ⟨hfr1, hfr2, hfr3⟩ :=
    pipeLoop_frame fullWriter rOr true (e.length - 1) fuel initLoopState sF hrun
  have hbF' : sF.broke = false := hbF
  have hdr : sF.drained = sumReads rOr sF.u := hfr1 rfl
  obtain ⟨hnr, hun⟩ := hfr2 rfl rfl rfl hbF'
  have hdle : sF.drained ≤ childOut := by rw [hdr]; exact hr sF.u
  have happ : ffindex_apply_by_entry e (some d) iOpt 0 fullWriter rOr childOut cstat fuel =
      some { ret := 0, st := sF, inputClosed := true, blockingRestored := true,
             captured := sF.drained + (childOut - sF.drained),
             inserted := some (e.name, sF.drained + (childOut - sF.drained)),
             line := cstat.map (fun c => (e.name, e.offset, e.length, c)) } := by
    unfold ffindex_apply_by_entry
    rw [if_neg (by simp)]
    simp only [capture_stdout, Option.isSome, hrun, if_pos]
  refine ⟨_, happ, by simpa [initLoopState] using hdF, by simpa [initLoopState] using hcF, ?_, hnr, rfl, rfl, ?_, ?_, rfl⟩
  · intro x hx
    rcases hfr3 x hx with hx1 | hx1
    · simp [initLoopState] at hx1
    · exact hx1
  · show sF.drained + (childOut - sF.drained) = childOut
    omega
  · show some (e.name, sF.drained + (childOut - sF.drained)) = some (e.name, childOut)
    congr 1
    exact congrArg _ (by omega)

/-- Witness for C2: the "hello" entry of spec §8 (payload 5 bytes, stored
length 6), a child writing 3 bytes. -/
theorem entry_pipe_runner_ok_w :
    pipeRunObs ⟨"hello", 0, 6⟩ "out.fd" (some "out.fi") zeroRead 3 (some 0) 5 :=
  entry_pipe_runner_ok ⟨"hello", 0, 6⟩ "out.fd" (some "out.fi") zeroRead 3 (some 0) 5
    (by decide) (by decide) (by decide)
    (fun k => by
      have h : sumReads zeroRead k = 0 := by
        induction k with
        | zero => rfl
        | succ k ih => rw [sumReads_succ, ih]; rfl
      omega)

/-- Counterexample to C3 as stated: with one worker (rank 1) processing
chunks `[0,1)` then `[1,2)`, the code's final entry sequence is
`["b", "a"]` (chunk `[1,2)` merged first), while the claimed ascending
chunk-start order gives `["a", "b"]`. -/
theorem merge_order_cex :
    workerRun abIndex plainEnv (some "d") (some "i") 1 [(0,1),(1,2)] [] =
      .done [FileId.chunk "d" 1 0 1, FileId.chunk "i" 1 0 1,
             FileId.chunk "d" 1 1 2, FileId.chunk "i" 1 1 2]
        [("a",0,1,0),("b",1,1,0)]
        [(1,2,0),(0,1,0)] ∧
    worker_merge_entrySeq [(1,2,0),(0,1,0)] twoChunkNames = ["b", "a"] ∧
    final_merge_entrySeq (fun _ => worker_merge_entrySeq [(1,2,0),(0,1,0)] twoChunkNames) 2 =
      ["b", "a"] ∧
    claimed_entrySeq 1 (fun _ => [(0,1),(1,2)]) (fun c => twoChunkNames (c.1, c.2, 0)) =
      ["a", "b"] ∧
    (["b", "a"] : List String) ≠ ["a", "b"] := by decide

/-- Claim C3, amended: the worker-local merge runs over the `worker_splits`
list, which `SLIST_INSERT_HEAD` builds in REVERSE completion order, so each
worker's chunk shards are merged in descending chunk-start order (when its
chunks complete in ascending start order), not ascending; the coordinator
does merge worker shards in ascending rank order `1..W`.  The final entry
sequence is, for rank 1 through W, the concatenation of that worker's chunks
in reverse completion order, each chunk's entries in original index order. -/
theorem merge_order_actual (index : Nat → Option ffindex_entry_t) (env : Nat → EntryEnv)
    (dOpt iOpt : Option String) (rank : Nat)
    (ent : Nat → ffindex_entry_t) (rOf : Nat → ApplyResult) (cs : List (Nat × Nat))
    (hgood : ∀ j, index j = some (ent j) ∧
      ffindex_apply_by_entry (ent j) dOpt iOpt (env j).sysErr (env j).wOr (env j).rOr
        (env j).childOut (env j).status (env j).fuel = some (rOf j) ∧
      (rOf j).ret = 0)
    (hcs : ∀ c ∈ cs, c.1 ≤ c.2) :
    workerRun index env dOpt iOpt rank cs [] =
      .done (cs.flatMap (fun c => chunkShardFiles dOpt iOpt rank c.1 c.2))
        (cs.flatMap (fun c =>
          (List.range' c.1 (c.2 - c.1)).flatMap (fun j => optList (rOf j).line)))
        ((cs.map (fun c => ((c.1, c.2, 0) : Nat × Nat × Nat))).reverse) ∧
    (∀ (l : List (Nat × Nat × Nat)) (content : Nat × Nat × Nat → List String),
      worker_merge_entrySeq l content = (l.map content).flatten) ∧
    (∀ (wshard : Nat → List String) (W : Nat),
      final_merge_entrySeq wshard (W + 1) = ((List.range' 1 W).map wshard).flatten) := by
  refine ⟨?_, ?_, ?_⟩
  · have h := workerRun_all index env dOpt iOpt rank ent rOf hgood cs [] hcs
    simpa using h
  · intro l content
    unfold worker_merge_entrySeq
    rw [foldl_append_flatten]
    simp
  · intro wshard W
    unfold final_merge_entrySeq
    rw [foldl_append_flatten]
    simp

/-- Witness for the amended C3: one worker, two chunks. -/
theorem merge_order_actual_w :
    workerRun abIndex plainEnv (some "d") (some "i") 1 [(0,1),(1,2)] [] =
      .done ([(0,1),(1,2)].flatMap (fun c => chunkShardFiles (some "d") (some "i") 1 c.1 c.2))
        ([(0,1),(1,2)].flatMap (fun c =>
          (List.range' c.1 (c.2 - c.1)).flatMap (fun j => optList (plainCaptureResult j).line)))
        (([(0,1),(1,2)].map (fun c => ((c.1, c.2, 0) : Nat × Nat × Nat))).reverse) ∧
    (∀ (l : List (Nat × Nat × Nat)) (content : Nat × Nat × Nat → List String),
      worker_merge_entrySeq l content = (l.map content).flatten) ∧
    (∀ (wshard : Nat → List String) (W : Nat),
      final_merge_entrySeq wshard (W + 1) = ((List.range' 1 W).map wshard).flatten) :=
  merge_order_actual abIndex plainEnv (some "d") (some "i") 1 entAB plainCaptureResult
    [(0,1),(1,2)] (fun _ => ⟨rfl, rfl, rfl⟩) (by decide)

/-- Claim C4: a write failure with `EPIPE` (the child closed its stdin after
`m` writes) is tolerated: the fatal error branch is never taken, no payload
beyond the first `m` writes is delivered, the function still closes the
input pipe, proceeds to the drain/wait phase, and returns `EXIT_SUCCESS`. -/
theorem epipe_tolerated (e : ffindex_entry_t) (dOpt iOpt : Option String) (m : Nat)
    (rOr : Nat → Nat) (childOut : Nat) (cstat : Option Nat) (fuel : Nat)
    (hlen : 1 ≤ e.length) (hsz : e.length - 1 < 2 ^ 64)
    (hfuel : m + (e.length - 1) + 1 ≤ fuel) :
    epipeRunObs e dOpt iOpt m rOr childOut cstat fuel := by
  obtain ⟨sF, hrun, hdF, hbF, hcF⟩ :=
    pipeLoop_epipe m rOr (capture_stdout dOpt) (e.length - 1) hsz fuel initLoopState
      (.inl ⟨rfl, Nat.zero_le m, by simp [initLoopState], by simp [initLoopState], rfl⟩)
      (by show m + min (m * PIPE_BUF) (e.length - 1) + 1 - 0 ≤ fuel
          have : min (m * PIPE_BUF) (e.length - 1) ≤ e.length - 1 := by omega
          omega)
  have happ : ffindex_apply_by_entry e dOpt iOpt 0 (epipeAfter m) rOr childOut cstat fuel =
      some { ret := 0, st := sF, inputClosed := true,
             blockingRestored := capture_stdout dOpt,
             captured := if capture_stdout dOpt then sF.drained + (childOut - sF.drained) else 0,
             inserted := if capture_stdout dOpt then
               some (e.name,
                 if capture_stdout dOpt then sF.drained + (childOut - sF.drained) else 0)
              else none,
             line := cstat.map (fun c => (e.name, e.offset, e.length, c)) } := by
    unfold ffindex_apply_by_entry
    rw [if_neg (by simp)]
    simp only [hrun]
  exact ⟨_, happ, hbF, hdF, hcF, rfl, rfl, rfl⟩

/-- Witness for C4: the child closes its stdin immediately (`m = 0`). -/
theorem epipe_tolerated_w :
    epipeRunObs ⟨"w", 0, 6⟩ (some "out.fd") none 0 zeroRead 0 (some 0) 6 :=
  epipe_tolerated ⟨"w", 0, 6⟩ (some "out.fd") none 0 zeroRead 0 (some 0) 6
    (by decide) (by decide) (by decide)

/-- Claim C5: at both merge levels, the removed files are exactly the two
input shard files (index, then data) of each successful merge step — a
failed step removes neither — and the destination files are never removed. -/
theorem merge_cleanup_exact (d i : String) (rank : Nat)
    (splits : List (Nat × Nat × Nat)) (ok : Nat × Nat × Nat → Bool)
    (size : Nat) (okc : Nat → Bool) :
    removedFiles (ffindex_worker_merge_splits (some d) (some i) rank splits ok) =
      (splits.filter ok).flatMap
        (fun sp => [FileId.chunk i rank sp.1 sp.2.1, FileId.chunk d rank sp.1 sp.2.1]) ∧
    (∀ f ∈ removedFiles (ffindex_worker_merge_splits (some d) (some i) rank splits ok),
      f ≠ FileId.worker d rank ∧ f ≠ FileId.worker i rank) ∧
    removedFiles (ffindex_merge_splits (some d) (some i) size okc) =
      ((List.range' 1 (size - 1)).filter okc).flatMap
        (fun r => [FileId.worker i r, FileId.worker d r]) ∧
    (∀ f ∈ removedFiles (ffindex_merge_splits (some d) (some i) size okc),
      f ≠ FileId.final d ∧ f ≠ FileId.final i) := by
  have hw : ∀ l : List (Nat × Nat × Nat),
      removedFiles (ffindex_worker_merge_splits (some d) (some i) rank l ok) =
        (l.filter ok).flatMap
          (fun sp => [FileId.chunk i rank sp.1 sp.2.1, FileId.chunk d rank sp.1 sp.2.1]) := by
    intro l
    induction l with
    | nil => rfl
    | cons sp l ih =>
      show removedFiles
        (([MergeOp.runBuild (.worker d rank) (.worker i rank)
            (.chunk d rank sp.1 sp.2.1) (.chunk i rank sp.1 sp.2.1)] ++
          (if ok sp then
            [MergeOp.removeFile (.chunk i rank sp.1 sp.2.1),
             MergeOp.removeFile (.chunk d rank sp.1 sp.2.1)]
           else [])) ++
          ffindex_worker_merge_splits (some d) (some i) rank l ok) = _
      rw [removedFiles_append, ih, List.filter_cons]
      by_cases hok : ok sp
      · simp [hok, removedFiles]
      · simp [hok, removedFiles]
  have hc : ∀ rs : List Nat,
      removedFiles ((rs.flatMap (fun r =>
          [MergeOp.runBuild (.final d) (.final i) (.worker d r) (.worker i r)] ++
          (if okc r then
            [MergeOp.removeFile (.worker i r), MergeOp.removeFile (.worker d r)]
           else [])))) =
        (rs.filter okc).flatMap (fun r => [FileId.worker i r, FileId.worker d r]) := by
    intro rs
    induction rs with
    | nil => rfl
    | cons r rs ih =>
      rw [List.flatMap_cons, removedFiles_append, ih, List.filter_cons]
      by_cases hok : okc r
      · simp [hok, removedFiles]
      · simp [hok, removedFiles]
  have hc2 : removedFiles (ffindex_merge_splits (some d) (some i) size okc) =
      ((List.range' 1 (size - 1)).filter okc).flatMap
        (fun r => [FileId.worker i r, FileId.worker d r]) := hc (List.range' 1 (size - 1))
  refine ⟨hw splits, ?_, hc2, ?_⟩
  · intro f hf
    rw [hw splits] at hf
    simp only [List.mem_flatMap] at hf
    obtain ⟨sp, _, hmem⟩ := hf
    simp only [List.mem_cons, List.mem_singleton] at hmem
    rcases hmem with h | h | h <;> first | (subst h; exact ⟨by simp, by simp⟩) | simp at h
  · intro f hf
    rw [hc2] at hf
    simp only [List.mem_flatMap] at hf
    obtain ⟨r, _, hmem⟩ := hf
    simp only [List.mem_cons, List.mem_singleton] at hmem
    rcases hmem with h | h | h <;> first | (subst h; exact ⟨by simp, by simp⟩) | simp at h

/-- Witness for C5: a worker merge where only the `[0,3)` step succeeds and
a coordinator merge where only rank 2 succeeds. -/
theorem merge_cleanup_exact_w :
    removedFiles (ffindex_worker_merge_splits (some "o.fd") (some "o.fi") 1
        [(3,6,0),(0,3,0)] (fun sp => sp.1 = 0)) =
      ([((3,6,0) : Nat × Nat × Nat), (0,3,0)].filter (fun sp => sp.1 = 0)).flatMap
        (fun sp => [FileId.chunk "o.fi" 1 sp.1 sp.2.1, FileId.chunk "o.fd" 1 sp.1 sp.2.1]) ∧
    (∀ f ∈ removedFiles (ffindex_worker_merge_splits (some "o.fd") (some "o.fi") 1
        [(3,6,0),(0,3,0)] (fun sp => sp.1 = 0)),
      f ≠ FileId.worker "o.fd" 1 ∧ f ≠ FileId.worker "o.fi" 1) ∧
    removedFiles (ffindex_merge_splits (some "o.fd") (some "o.fi") 3 (fun r => r = 2)) =
      ((List.range' 1 2).filter (fun r => r = 2)).flatMap
        (fun r => [FileId.worker "o.fi" r, FileId.worker "o.fd" r]) ∧
    (∀ f ∈ removedFiles (ffindex_merge_splits (some "o.fd") (some "o.fi") 3 (fun r => r = 2)),
      f ≠ FileId.final "o.fd" ∧ f ≠ FileId.final "o.fi") :=
  merge_cleanup_exact "o.fd" "o.fi" 1 [(3,6,0),(0,3,0)] (fun sp => sp.1 = 0) 3 (fun r => r = 2)

/-- Counterexample to C6 as stated: an entry whose child is terminated by a
signal (`waitpid` reports no `WIFEXITED` status) is processed (the runner
returns `EXIT_SUCCESS`) but no progress line is emitted, because lines
196-200 print only under `WIFEXITED`. -/
theorem report_line_missing_cex :
    (ffindex_apply_by_entry (entAB 0) none none 0 fullWriter zeroRead 0 none 1).map
      (fun r => (r.ret, r.line)) = some (0, none) ∧
    workerRun abIndex signalEnv none none 1 [(0,1)] [] = .done [] [] [(0,1,0)] := by decide

/-- Claim C6, amended: a completed `ffindex_apply_by_entry` returns
`EXIT_SUCCESS` whatever the child's exit status, and emits the progress line
`name, offset, length, exit_status` exactly when the child exited normally
(`WIFEXITED`); a signal-terminated child produces no line.  Since the
return value is `EXIT_SUCCESS`, the worker loop continues through all
subsequent entries of the chunk. -/
theorem child_status_reported_nonfatal (e : ffindex_entry_t) (dOpt iOpt : Option String)
    (wOr : Nat → Nat → WriteRes) (rOr : Nat → Nat) (childOut : Nat)
    (cstat : Option Nat) (fuel : Nat) (r : ApplyResult)
    (happly : ffindex_apply_by_entry e dOpt iOpt 0 wOr rOr childOut cstat fuel = some r)
    (index : Nat → Option ffindex_entry_t) (env : Nat → EntryEnv)
    (ent : Nat → ffindex_entry_t) (rOf : Nat → ApplyResult) (i k : Nat) (st : WorkerState)
    (hgood : ∀ j, i ≤ j → j < i + k → index j = some (ent j) ∧
      ffindex_apply_by_entry (ent j) dOpt iOpt (env j).sysErr (env j).wOr (env j).rOr
        (env j).childOut (env j).status (env j).fuel = some (rOf j) ∧
      (rOf j).ret = 0) :
    (r.ret = 0 ∧ r.line = cstat.map (fun c => (e.name, e.offset, e.length, c))) ∧
    workerEntriesLoop index dOpt iOpt env i k st =
      .done { lines := st.lines ++ (List.range' i k).flatMap (fun j => optList (rOf j).line),
              appends := st.appends ++
                (List.range' i k).flatMap (fun j => optList (rOf j).inserted),
              exit_status := st.exit_status } := by
  obtain ⟨h1, h2, _, _⟩ := apply_fields e dOpt iOpt wOr rOr childOut cstat fuel r happly
  exact ⟨⟨h1, h2⟩, workerEntriesLoop_all index dOpt iOpt env ent rOf k i st hgood⟩

/-- Witness for C6: children exiting with the non-zero status 3; both
entries of the chunk are still processed and both lines are emitted. -/
theorem child_status_reported_nonfatal_w :
    ((failStatusResult 0).ret = 0 ∧ (failStatusResult 0).line =
      (some 3).map (fun c => ((entAB 0).name, (entAB 0).offset, (entAB 0).length, c))) ∧
    workerEntriesLoop abIndex none none failStatusEnv 0 2 initWorkerState =
      .done { lines := initWorkerState.lines ++
                (List.range' 0 2).flatMap (fun j => optList (failStatusResult j).line),
              appends := initWorkerState.appends ++
                (List.range' 0 2).flatMap (fun j => optList (failStatusResult j).inserted),
              exit_status := initWorkerState.exit_status } :=
  child_status_reported_nonfatal (entAB 0) none none fullWriter zeroRead 0 (some 3) 1
    (failStatusResult 0) rfl abIndex failStatusEnv entAB failStatusResult 0 2
    initWorkerState (fun j _ _ => ⟨rfl, rfl, rfl⟩)

/-- Claim C7: `parts` does default to 10, but `-p PARTS` does not supply the
integer value of `PARTS`: the optstring `p::` declares an OPTIONAL argument,
so a detached `-p 5` leaves `optarg == NULL` and line 407 (`parts = optarg;`)
stores 0, making the planner's divisor `(MPQ_size - 1) * parts` zero (a
division by zero in C); an attached `-p5` stores the `char *` pointer value
itself, not `atoi("5") = 5`. -/
theorem parts_option_bug :
    (∀ ptrVal : String → Int, (parseCli ptrVal ["data", "index"]).parts = 10) ∧
    (∀ ptrVal : String → Int,
      (parseCli ptrVal ["-p", "5", "data", "index"]).parts = 0) ∧
    (∀ ptrVal : String → Int,
      (parseCli ptrVal ["-p5", "data", "index"]).parts = ptrVal "5") ∧
    ((0 : Int) ≠ 5) ∧
    (∀ ptrVal : String → Int,
      (2 - 1) * Int.toNat (parseCli ptrVal ["-p", "5", "data", "index"]).parts = 0) := by
  refine ⟨fun ptrVal => rfl, fun ptrVal => rfl, fun ptrVal => ?_, by decide, fun ptrVal => rfl⟩
  rfl

/-- Claim C8: when `ffindex_get_entry_by_index` returns `NULL` (here at
index 2 of a two-entry index), the error branch of lines 334-338 evaluates
`perror(entry->name)` with `entry == NULL`, dereferencing the null pointer:
the worker crashes instead of aborting only the chunk. -/
theorem fetch_null_deref_crash :
    (fun i => if i < 2 then abIndex i else none) 2 = none ∧
    workerEntriesLoop (fun i => if i < 2 then abIndex i else none) none none plainEnv 2 1
      initWorkerState = .crash ∧
    ffindex_apply_worker_payload (fun i => if i < 2 then abIndex i else none) plainEnv
      none none 1 2 3 = .crash := by decide

/-- Counterexample to C9 as stated: capture disabled and both children
killed by signals — still no files, but the run emits zero progress lines
for two processed entries. -/
theorem capture_disabled_line_cex :
    workerRun abIndex signalEnv none none 2 [(0,2)] [] = .done [] [] [(0,2,0)] ∧
    ([] : List (String × Nat × Nat × Nat)).length = 0 ∧ (0 : Nat) ≠ 2 := by decide

/-- Claim C9, amended: with both `-d` and `-i` omitted, no shard files are
created at any level — the worker opens no chunk shard files and both merge
steps perform no file operations — while the progress stream still emits
one line per processed entry whose child exited normally (a
signal-terminated child produces no line, see the counterexample). -/
theorem capture_disabled_frame (index : Nat → Option ffindex_entry_t) (env : Nat → EntryEnv)
    (rank : Nat) (ent : Nat → ffindex_entry_t) (rOf : Nat → ApplyResult)
    (cs : List (Nat × Nat)) (splits : List (Nat × Nat × Nat))
    (ok : Nat × Nat × Nat → Bool) (size : Nat) (okc : Nat → Bool)
    (hsys : ∀ j, (env j).sysErr = 0)
    (hgood : ∀ j, index j = some (ent j) ∧
      ffindex_apply_by_entry (ent j) none none (env j).sysErr (env j).wOr (env j).rOr
        (env j).childOut (env j).status (env j).fuel = some (rOf j) ∧
      (rOf j).ret = 0)
    (hcs : ∀ c ∈ cs, c.1 ≤ c.2) :
    workerRun index env none none rank cs [] =
      .done [] (cs.flatMap (fun c =>
          (List.range' c.1 (c.2 - c.1)).flatMap (fun j => optList (rOf j).line)))
        ((cs.map (fun c => ((c.1, c.2, 0) : Nat × Nat × Nat))).reverse) ∧
    (∀ j, (rOf j).line =
      (env j).status.map (fun c => ((ent j).name, (ent j).offset, (ent j).length, c))) ∧
    ffindex_worker_merge_splits none none rank splits ok = [] ∧
    ffindex_merge_splits none none size okc = [] := by
  refine ⟨?_, ?_, rfl, rfl⟩
  · have h := workerRun_all index env none none rank ent rOf hgood cs [] hcs
    have hfiles : cs.flatMap (fun c => chunkShardFiles none none rank c.1 c.2) = [] :=
      flatMap_nil_of (fun c _ => rfl)
    rw [hfiles] at h
    simpa using h
  · intro j
    have he := (hgood j).2.1
    rw [hsys j] at he
    exact (apply_fields (ent j) none none (env j).wOr (env j).rOr (env j).childOut
      (env j).status (env j).fuel (rOf j) he).2.1

/-- Witness for C9: one worker, one chunk of two entries, no output files. -/
theorem capture_disabled_frame_w :
    workerRun abIndex plainEnv none none 1 [(0,2)] [] =
      .done [] ([((0,2) : Nat × Nat)].flatMap (fun c =>
          (List.range' c.1 (c.2 - c.1)).flatMap
            (fun j => optList (plainNoCaptureResult j).line)))
        (([((0,2) : Nat × Nat)].map (fun c => ((c.1, c.2, 0) : Nat × Nat × Nat))).reverse) ∧
    (∀ j, (plainNoCaptureResult j).line =
      (plainEnv j).status.map
        (fun c => ((entAB j).name, (entAB j).offset, (entAB j).length, c))) ∧
    ffindex_worker_merge_splits none none 1 [(0,2,0)] (fun _ => true) = [] ∧
    ffindex_merge_splits none none 3 (fun _ => true) = [] :=
  capture_disabled_frame abIndex plainEnv 1 entAB plainNoCaptureResult
    [(0,2)] [(0,2,0)] (fun _ => true) 3 (fun _ => true)
    (fun _ => rfl) (fun _ => ⟨rfl, rfl, rfl⟩) (by decide)

/-- Claim C10: capture is decided solely by the `-d` option (line 49):
`capture_stdout` is false without a data output file and true with one,
independent of `-i`.  With only `-i` given, nothing is ever captured or
appended, yet an empty index chunk shard file is still created for every
chunk, and both merge steps (which require the data filename) do nothing,
leaving those files behind. -/
theorem capture_iff_dataout (iName : String) (index : Nat → Option ffindex_entry_t)
    (env : Nat → EntryEnv) (ent : Nat → ffindex_entry_t) (rOf : Nat → ApplyResult)
    (rank start stop : Nat) (splits : List (Nat × Nat × Nat))
    (ok : Nat × Nat × Nat → Bool) (size : Nat) (okc : Nat → Bool)
    (hss : start ≤ stop) (hsys : ∀ j, (env j).sysErr = 0)
    (hgood : ∀ j, start ≤ j → j < stop → index j = some (ent j) ∧
      ffindex_apply_by_entry (ent j) none (some iName) (env j).sysErr (env j).wOr
        (env j).rOr (env j).childOut (env j).status (env j).fuel = some (rOf j) ∧
      (rOf j).ret = 0) :
    capture_stdout (none : Option String) = false ∧
    (∀ d : String, capture_stdout (some d) = true) ∧
    (∀ j, start ≤ j → j < stop → (rOf j).inserted = none ∧ (rOf j).captured = 0) ∧
    ffindex_apply_worker_payload index env none (some iName) rank start stop =
      .done [FileId.chunk iName rank start stop]
        { lines := (List.range' start (stop - start)).flatMap
            (fun j => optList (rOf j).line),
          appends := [], exit_status := 0 }
        (start, stop, 0) ∧
    ffindex_worker_merge_splits none (some iName) rank splits ok = [] ∧
    ffindex_merge_splits none (some iName) size okc = [] := by
  have hins : ∀ j, start ≤ j → j < stop →
      (rOf j).inserted = none ∧ (rOf j).captured = 0 := by
    intro j h1 h2
    have he := (hgood j h1 h2).2.1
    rw [hsys j] at he
    exact (apply_fields (ent j) none (some iName) (env j).wOr (env j).rOr (env j).childOut
      (env j).status (env j).fuel (rOf j) he).2.2.2 rfl
  refine ⟨rfl, fun d => rfl, hins, ?_, rfl, rfl⟩
  have h := payload_all index env none (some iName) rank ent rOf start stop hss hgood
  have happ : (List.range' start (stop - start)).flatMap
      (fun j => optList (rOf j).inserted) = [] := by
    apply flatMap_nil_of
    intro j hj
    rw [List.mem_range'_1] at hj
    rw [(hins j hj.1 (by omega)).1]
    rfl
  rw [happ] at h
  exact h

/-- Witness for C10: only `-i out.fi` given, one chunk of two entries. -/
theorem capture_iff_dataout_w :
    capture_stdout (none : Option String) = false ∧
    (∀ d : String, capture_stdout (some d) = true) ∧
    (∀ j, 0 ≤ j → j < 2 →
      (plainNoCaptureResult j).inserted = none ∧ (plainNoCaptureResult j).captured = 0) ∧
    ffindex_apply_worker_payload abIndex plainEnv none (some "out.fi") 1 0 2 =
      .done [FileId.chunk "out.fi" 1 0 2]
        { lines := (List.range' 0 2).flatMap
            (fun j => optList (plainNoCaptureResult j).line),
          appends := [], exit_status := 0 }
        (0, 2, 0) ∧
    ffindex_worker_merge_splits none (some "out.fi") 1 [(0,2,0)] (fun _ => true) = [] ∧
    ffindex_merge_splits none (some "out.fi") 3 (fun _ => true) = [] :=
  capture_iff_dataout "out.fi" abIndex plainEnv entAB plainNoCaptureResult 1 0 2
    [(0,2,0)] (fun _ => true) 3 (fun _ => true) (by decide) (fun _ => rfl)
    (fun j _ _ => ⟨rfl, rfl, rfl⟩)
